import Mathlib

/-!
A verification development for the type-representation core of the Torque
compiler front-end (src/torque/types.h).

The embedding is shallow: every C++ class/function that the claims depend on
is translated into an executable Lean definition.  Types are modelled as an
inductive tree `Ty`; a type's `parent_` pointer becomes a subterm, so parent
chains are finite and acyclic by construction, matching the construction-time
invariant the source assumes.  The external interning factory guarantees that
structurally equal types are reference-identical, so C++ pointer equality is
modelled as structural equality on `Ty`.

A `UnionType`'s mutable state (its `parent_` and its `types_` member set) is
modelled by the structure `USt`; the member `std::set` is modelled as a
duplicate-free list whose order is an artifact (the stored order of the C++
set is fixed by a global total order on types; all properties proved about
members are order-insensitive, and where the stored order matters — hashing
and `operator==` — the list is first sorted by an injective address function
modelling reference-identity ordering, see `sortByAddr`).

Function bodies that live in the (absent) types.cc are modelled from the
spec; each such definition carries a doc comment starting with
`Modelled from the spec:`.
-/

set_option maxHeartbeats 1000000

namespace Torque

/-- The closed variant set of types: `AbstractType` (parent, name,
generated_type), `FunctionPointerType` (parent, parameter_types, return_type)
and `UnionType` (parent, member set).  The `parent_` pointer of the C++
`Type` base class is the first field of each constructor (`Option` because it
can be null; a `UnionType`'s parent is never null, it is initialised to the
seed type). -/
inductive Ty where
  | abstract : Option Ty → String → String → Ty
  | fnptr : Option Ty → List Ty → Ty → Ty
  | union : Ty → List Ty → Ty

mutual
/-- Structural (= reference, by interning) equality test on types. -/
def tyBeq : Ty → Ty → Bool
  | .abstract p n g, .abstract q n' g' => tyOptBeq p q && n == n' && g == g'
  | .fnptr p ps r, .fnptr q qs r' => tyOptBeq p q && tyListBeq ps qs && tyBeq r r'
  | .union p ms, .union q ns => tyBeq p q && tyListBeq ms ns
  | _, _ => false

def tyOptBeq : Option Ty → Option Ty → Bool
  | none, none => true
  | some a, some b => tyBeq a b
  | _, _ => false

def tyListBeq : List Ty → List Ty → Bool
  | [], [] => true
  | a :: as, b :: bs => tyBeq a b && tyListBeq as bs
  | _, _ => false
end

mutual
theorem tyBeq_iff : ∀ a b : Ty, tyBeq a b = true ↔ a = b
  | .abstract p n g, .abstract q n' g' => by
    simp [tyBeq, tyOptBeq_iff p q, and_assoc]
  | .fnptr p ps r, .fnptr q qs r' => by
    simp [tyBeq, tyOptBeq_iff p q, tyListBeq_iff ps qs, tyBeq_iff r r', and_assoc]
  | .union p ms, .union q ns => by
    simp [tyBeq, tyBeq_iff p q, tyListBeq_iff ms ns]
  | .abstract _ _ _, .fnptr _ _ _ => by simp [tyBeq]
  | .abstract _ _ _, .union _ _ => by simp [tyBeq]
  | .fnptr _ _ _, .abstract _ _ _ => by simp [tyBeq]
  | .fnptr _ _ _, .union _ _ => by simp [tyBeq]
  | .union _ _, .abstract _ _ _ => by simp [tyBeq]
  | .union _ _, .fnptr _ _ _ => by simp [tyBeq]

theorem tyOptBeq_iff : ∀ a b : Option Ty, tyOptBeq a b = true ↔ a = b
  | none, none => by simp [tyOptBeq]
  | some a, some b => by simp [tyOptBeq, tyBeq_iff a b]
  | none, some _ => by simp [tyOptBeq]
  | some _, none => by simp [tyOptBeq]

theorem tyListBeq_iff : ∀ a b : List Ty, tyListBeq a b = true ↔ a = b
  | [], [] => by simp [tyListBeq]
  | a :: as, b :: bs => by simp [tyListBeq, tyBeq_iff a b, tyListBeq_iff as bs]
  | [], _ :: _ => by simp [tyListBeq]
  | _ :: _, [] => by simp [tyListBeq]
end

instance : DecidableEq Ty := fun a b => decidable_of_iff _ (tyBeq_iff a b)

/-- `TypeBase::IsUnionType`. -/
def Ty.isUnionT : Ty → Bool
  | .union _ _ => true
  | _ => false

/-- The `parent()` accessor of `Type`. -/
def parentOf : Ty → Option Ty
  | .abstract p _ _ => p
  | .fnptr p _ _ => p
  | .union p _ => some p

/-- Modelled from the spec: `Type::Depth` (declared at types.h:99, body in the
absent types.cc) measures chain length to the root (a type with no parent). -/
def depth : Ty → Nat
  | .abstract none _ _ => 0
  | .abstract (some p) _ _ => depth p + 1
  | .fnptr none _ _ => 0
  | .fnptr (some p) _ _ => depth p + 1
  | .union p _ => depth p + 1

/-- The parent chain of a type, starting at the type itself: the set of types
reachable by following `parent_` pointers finitely many hops. -/
def ancestors : Ty → List Ty
  | .abstract none n g => [.abstract none n g]
  | .abstract (some p) n g => .abstract (some p) n g :: ancestors p
  | .fnptr none ps r => [.fnptr none ps r]
  | .fnptr (some p) ps r => .fnptr (some p) ps r :: ancestors p
  | .union p ms => .union p ms :: ancestors p

mutual
/-- Modelled from the spec: the base (non-union) `Type::IsSubtypeOf`
(declared at types.h:77, body in the absent types.cc): true iff `sub == sup`
or sub's parent chain reaches `sup` by finitely many hops; when the supertype
is a union, subtyping means being a subtype of some retained member
(the union's `IsSupertypeOf`, types.h:234). -/
def typeIsSubtypeOf (sub : Ty) : Ty → Bool
  | .union _ ms => anyMemberAbove sub ms
  | sup => decide (sup ∈ ancestors sub)

/-- The loop of `UnionType::IsSupertypeOf` (types.h:234-241): true iff `sub`
is a subtype of at least one member of the list (disjunctive). -/
def anyMemberAbove (sub : Ty) : List Ty → Bool
  | [] => false
  | m :: ms => typeIsSubtypeOf sub m || anyMemberAbove sub ms
end

mutual
/-- The virtual `IsSubtypeOf` dispatch: a `UnionType` (types.h:227-232) is a
subtype of `sup` iff every member is (conjunctive); other types use the base
`Type::IsSubtypeOf`. -/
def isSubtypeOf : Ty → Ty → Bool
  | .union _ ms, sup => allMembersBelow ms sup
  | sub, sup => typeIsSubtypeOf sub sup

/-- The loop of `UnionType::IsSubtypeOf` (types.h:227-232). -/
def allMembersBelow : List Ty → Ty → Bool
  | [], _ => true
  | m :: ms, sup => isSubtypeOf m sup && allMembersBelow ms sup
end

/-- Walk `k` steps up the parent chain (stopping at a parentless type). -/
def goUp : Nat → Ty → Ty
  | 0, t => t
  | k + 1, t =>
    match parentOf t with
    | some p => goUp k p
    | none => t

/-- The lock-step phase of `CommonSupertype`: both chains advance together
until the same type is reached or a parentless type is hit. -/
def lockstep : Nat → Ty → Ty → Ty
  | 0, a, _ => a
  | fuel + 1, a, b =>
    if a = b then a
    else
      match parentOf a, parentOf b with
      | some pa, some pb => lockstep fuel pa pb
      | _, _ => a

/-- Modelled from the spec: `Type::CommonSupertype` (declared at types.h:91,
body in the absent types.cc): walk both parent chains to equalize depth
(advancing the deeper one), then advance both in lock-step until the same
type is reached, or until both reach a type with no parent, in which case
that root is returned — the algorithm never fails. -/
def commonSupertype (a b : Ty) : Ty :=
  if depth b ≤ depth a then lockstep (depth b + 1) (goUp (depth a - depth b) a) b
  else lockstep (depth a + 1) a (goUp (depth b - depth a) b)

/-- The mutable state of a `UnionType` object: its `parent_` and its member
set `types_` (types.h:268), the latter as a duplicate-free list. -/
structure USt where
  parent : Ty
  members : List Ty
deriving DecidableEq

/-- The `Ty` value denoted by a `UnionType` object in its current state. -/
def mkUnionTy (u : USt) : Ty := Ty.union u.parent u.members

/-- `std::set::insert`: a no-op when the element is already present. -/
def insertMem (t : Ty) (l : List Ty) : List Ty :=
  if t ∈ l then l else l ++ [t]

mutual
/-- `UnionType::Extend` (types.h:243-258): a union argument is flattened by
extending with each of its members in turn; a non-union argument already
subtype of the union is a no-op; otherwise the parent is recomputed as
`CommonSupertype(parent, t)`, members that are subtypes of `t` are erased,
and `t` is inserted. -/
def extend (u : USt) : Ty → USt
  | .union _ ms => extendList u ms
  | t =>
    if isSubtypeOf t (mkUnionTy u) then u
    else
      { parent := commonSupertype u.parent t,
        members := insertMem t (u.members.filter fun m => !(isSubtypeOf m t)) }

/-- The flattening loop of `UnionType::Extend` over a member list. -/
def extendList (u : USt) : List Ty → USt
  | [] => u
  | m :: ms => extendList (extend u m) ms
end

/-- `UnionType::FromType` (types.h:260-263): copy an existing union, or build
the singleton union of a non-union seed, with parent the seed itself
(the private constructor at types.h:266). -/
def fromType : Ty → USt
  | .union p ms => { parent := p, members := ms }
  | t => { parent := t, members := [t] }

/-- `UnionType::Normalize` (types.h:220-225): if the member set has exactly
one element return `parent()`, else return the union itself. -/
def normalize (u : USt) : Ty :=
  if u.members.length = 1 then u.parent else mkUnionTy u

/-- `UnionType::GetSingleMember` (types.h:212-218): the lone member when the
set size is 1, absence otherwise. -/
def getSingleMember (u : USt) : Option Ty :=
  match u.members with
  | [m] => some m
  | _ => none

/-- `Type::IsNever` (types.h:82): name-based match of an `AbstractType`
against the well-known name. `IsAbstractName` itself lives in the absent
types.cc; modelled from the spec: these predicates are purely name-based
string comparisons and only ever return true for `AbstractType` instances
bearing those exact names. -/
def isNever : Ty → Bool
  | .abstract _ n _ => n == ("never")
  | _ => false

/-- Modelled from the spec: `IsAssignableFrom` (declared at types.h:349, body
in the absent types.cc): `from` is a subtype of `to`, or `from` is the
bottom/never type, which is assignable to every target. -/
def isAssignableFrom (tgt frm : Ty) : Bool :=
  isSubtypeOf frm tgt || isNever frm

/-- `ParameterTypes` (types.h:326-329). -/
structure ParameterTypes where
  types : List Ty
  var_args : Bool
deriving DecidableEq

/-- The pairwise loop of `IsCompatibleSignature`: each supplied argument must
be assignable to the corresponding declared parameter; extra trailing
supplied arguments are accepted only with `var_args`; missing arguments are
rejected. -/
def checkArgs : List Ty → List Ty → Bool → Bool
  | [], [], _ => true
  | [], _ :: _, varargs => varargs
  | _ :: _, [], _ => false
  | d :: ds, a :: as, varargs => isAssignableFrom d a && checkArgs ds as varargs

/-- Modelled from the spec: `IsCompatibleSignature` (declared at types.h:350,
body in the absent types.cc): pairwise-checks that each supplied argument
type is assignable to the corresponding declared parameter type; with
`var_args` any number of trailing supplied arguments beyond the fixed prefix
are accepted without further type checking, otherwise the supplied count must
exactly match the fixed parameter count; any mismatch yields false. -/
def isCompatibleSignature (sig : ParameterTypes) (frm : List Ty) : Bool :=
  checkArgs sig.types frm sig.var_args

/-- A hash combiner over machine words, modelling `base::hash_combine`
(external to this core); the exact mixing formula is irrelevant to the
claims, only that it is a function of the sequence hashed. -/
def hashCombine (seed h : Nat) : Nat :=
  (seed ^^^ (h + 2654435769 + seed * 64 + seed / 4)) % (2 ^ 64)

/-- Modelled from the spec: the strict total order `operator<` over types
(declared at types.h:179, body in the absent types.cc) used by `TypeLess` to
keep the member `std::set` deterministic; reference-identity-based ordering,
represented by an injective address function. `sortByAddr` recovers the
stored (sorted) sequence of a member set from its list of elements. -/
def sortByAddr (addr : Ty → Nat) (l : List Ty) : List Ty :=
  l.insertionSort (fun a b => addr a ≤ addr b)

/-- `UnionType::operator==` (types.h:208-210): elementwise equality of the
stored member sequences (`types_ == other.types_`); parent and aliases are
not compared. -/
def unionTypeEq (addr : Ty → Nat) (u v : USt) : Bool :=
  sortByAddr addr u.members == sortByAddr addr v.members

/-- `hash_value(const UnionType&)` (types.h:201-207): fold `hash_combine`
over the stored member sequence starting from 0; parent and aliases are not
hashed. -/
def unionHash (addr : Ty → Nat) (u : USt) : Nat :=
  (sortByAddr addr u.members).foldl (fun s t => hashCombine s (addr t)) 0

/-- The unions constructible by the program: built by `FromType` from a
non-union seed (copying an existing union yields the same state) followed by
an arbitrary sequence of `Extend` calls. -/
inductive Reachable : USt → Prop where
  | base (t : Ty) (h : t.isUnionT = false) : Reachable (fromType t)
  | step (u : USt) (t : Ty) (h : Reachable u) : Reachable (extend u t)

/-! Sample concrete types used by witnesses, mirroring the scenario of the
spec: abstract types Smi <: Number, HeapNumber <: Number under a root. -/

def tRoot : Ty := Ty.abstract none ("Root") ("gRoot")

def tNumber : Ty := Ty.abstract (some tRoot) ("Number") ("gNumber")

def tSmi : Ty := Ty.abstract (some tNumber) ("Smi") ("gSmi")

def tHeapNumber : Ty := Ty.abstract (some tNumber) ("HeapNumber") ("gHeapNumber")

def tNever : Ty := Ty.abstract none ("never") ("gNever")

def tIntT : Ty := Ty.abstract (some tRoot) ("Int") ("gInt")

def tStrT : Ty := Ty.abstract (some tRoot) ("Str") ("gStr")

/-! Basic facts about the parent chain. -/

theorem parentOf_sizeOf : ∀ {t p : Ty}, parentOf t = some p → sizeOf p < sizeOf t := by
  intro t p h
  cases t with
  | abstract q n g =>
    cases q with
    | none => simp [parentOf] at h
    | some q => simp [parentOf] at h; subst h; simp; omega
  | fnptr q qs r =>
    cases q with
    | none => simp [parentOf] at h
    | some q => simp [parentOf] at h; subst h; simp; omega
  | union q ms => simp [parentOf] at h; subst h; simp; omega

/-- Induction along the parent chain. -/
theorem chain_ind (P : Ty → Prop) (h : ∀ t, (∀ p, parentOf t = some p → P p) → P t) :
    ∀ t, P t
  | t => h t (fun p _hp => chain_ind P h p)
termination_by t => sizeOf t
decreasing_by exact parentOf_sizeOf _hp

theorem ancestors_eq (t : Ty) :
    ancestors t = t :: (match parentOf t with | some p => ancestors p | none => []) := by
  cases t with
  | abstract q n g => cases q <;> rfl
  | fnptr q qs r => cases q <;> rfl
  | union q ms => rfl

theorem depth_eq (t : Ty) :
    depth t = (match parentOf t with | some p => depth p + 1 | none => 0) := by
  cases t with
  | abstract q n g => cases q <;> rfl
  | fnptr q qs r => cases q <;> rfl
  | union q ms => rfl

theorem ancestors_parent {t p : Ty} (h : parentOf t = some p) :
    ancestors t = t :: ancestors p := by
  rw [ancestors_eq, h]

theorem ancestors_root {t : Ty} (h : parentOf t = none) : ancestors t = [t] := by
  rw [ancestors_eq, h]

theorem depth_parent {t p : Ty} (h : parentOf t = some p) : depth t = depth p + 1 := by
  rw [depth_eq, h]

theorem depth_root {t : Ty} (h : parentOf t = none) : depth t = 0 := by
  rw [depth_eq, h]

theorem depth_zero_iff {t : Ty} : depth t = 0 ↔ parentOf t = none := by
  constructor
  · intro h
    cases hp : parentOf t with
    | none => rfl
    | some p => rw [depth_parent hp] at h; omega
  · exact depth_root

theorem self_mem_ancestors (t : Ty) : t ∈ ancestors t := by
  rw [ancestors_eq]; exact List.mem_cons_self _ _

theorem mem_ancestors_of_parent {t p y : Ty} (h : parentOf t = some p)
    (hy : y ∈ ancestors p) : y ∈ ancestors t := by
  rw [ancestors_parent h]; exact List.mem_cons_of_mem _ hy

theorem parent_mem_ancestors {t p : Ty} (h : parentOf t = some p) :
    p ∈ ancestors t :=
  mem_ancestors_of_parent h (self_mem_ancestors p)

/-! Facts about `goUp` and the chain/depth correspondence. -/

theorem goUp_zero (t : Ty) : goUp 0 t = t := rfl

theorem goUp_succ {t p : Ty} (k : Nat) (h : parentOf t = some p) :
    goUp (k + 1) t = goUp k p := by
  rw [goUp, h]

theorem goUp_root {t : Ty} (k : Nat) (h : parentOf t = none) : goUp k t = t := by
  cases k with
  | zero => rfl
  | succ k => rw [goUp, h]

theorem goUp_mem_ancestors (k : Nat) (t : Ty) : goUp k t ∈ ancestors t := by
  induction k generalizing t with
  | zero => exact self_mem_ancestors t
  | succ k ih =>
    cases hp : parentOf t with
    | none => rw [goUp_root _ hp]; exact self_mem_ancestors t
    | some p => rw [goUp_succ _ hp]; exact mem_ancestors_of_parent hp (ih p)

theorem depth_goUp {k : Nat} {t : Ty} (h : k ≤ depth t) :
    depth (goUp k t) = depth t - k := by
  induction k generalizing t with
  | zero => simp [goUp_zero]
  | succ k ih =>
    cases hp : parentOf t with
    | none => rw [depth_root hp] at h; omega
    | some p =>
      rw [goUp_succ _ hp]
      rw [depth_parent hp] at h ⊢
      rw [ih (by omega)]
      omega

theorem goUp_add (j k : Nat) (t : Ty) : goUp (j + k) t = goUp j (goUp k t) := by
  induction k generalizing t with
  | zero => rfl
  | succ k ih =>
    cases hp : parentOf t with
    | none => rw [goUp_root _ hp, goUp_root _ hp, goUp_root _ hp]
    | some p =>
      have : j + (k + 1) = (j + k) + 1 := by omega
      rw [this, goUp_succ _ hp, goUp_succ _ hp, ih]

/-- A type's chain node is determined by its depth: `y` is an ancestor of `x`
iff it is reached by walking up exactly `depth x - depth y` steps. -/
theorem mem_ancestors_iff {x y : Ty} :
    y ∈ ancestors x ↔ depth y ≤ depth x ∧ goUp (depth x - depth y) x = y := by
  induction x using chain_ind with
  | h x ih =>
    constructor
    · intro hy
      rw [ancestors_eq] at hy
      rcases List.mem_cons.mp hy with h | h
      · subst h; simp [goUp_zero]
      · cases hp : parentOf x with
        | none => rw [hp] at h; simp at h
        | some p =>
          rw [hp] at h
          obtain ⟨h1, h2⟩ := (ih p hp).mp h
          refine ⟨by rw [depth_parent hp]; omega, ?_⟩
          rw [depth_parent hp]
          have : depth p + 1 - depth y = (depth p - depth y) + 1 := by omega
          rw [this, goUp_succ _ hp, h2]
    · rintro ⟨h1, h2⟩
      rcases Nat.eq_or_lt_of_le h1 with h | h
      · rw [h] at h2; simp [goUp_zero] at h2; rw [← h2]; exact self_mem_ancestors x
      · have hd : 0 < depth x := by omega
        cases hp : parentOf x with
        | none => rw [depth_root hp] at hd; omega
        | some p =>
          rw [depth_parent hp] at h h2
          have : depth p + 1 - depth y = (depth p - depth y) + 1 := by omega
          rw [this, goUp_succ _ hp] at h2
          exact mem_ancestors_of_parent hp ((ih p hp).mpr ⟨by omega, h2⟩)

theorem depth_le_of_mem_ancestors {x y : Ty} (h : y ∈ ancestors x) :
    depth y ≤ depth x :=
  (mem_ancestors_iff.mp h).1

/-- Transitivity of the parent-chain (supertype) order. -/
theorem ancestors_trans {x y z : Ty} (hy : y ∈ ancestors x) (hz : z ∈ ancestors y) :
    z ∈ ancestors x := by
  obtain ⟨h1, h2⟩ := mem_ancestors_iff.mp hy
  obtain ⟨h3, h4⟩ := mem_ancestors_iff.mp hz
  refine mem_ancestors_iff.mpr ⟨by omega, ?_⟩
  have : depth x - depth z = (depth y - depth z) + (depth x - depth y) := by omega
  rw [this, goUp_add, h2, h4]

/-- Antisymmetry of the parent-chain order (chains are acyclic). -/
theorem ancestors_antisymm {x y : Ty} (hy : y ∈ ancestors x) (hx : x ∈ ancestors y) :
    x = y := by
  have h1 := depth_le_of_mem_ancestors hy
  have h2 := depth_le_of_mem_ancestors hx
  obtain ⟨h3, h4⟩ := mem_ancestors_iff.mp hy
  have : depth x - depth y = 0 := by omega
  rw [this, goUp_zero] at h4
  exact h4

/-- Two nodes of the same chain at the same depth coincide. -/
theorem mem_ancestors_depth_inj {x y z : Ty} (hy : y ∈ ancestors x)
    (hz : z ∈ ancestors x) (h : depth y = depth z) : y = z := by
  obtain ⟨h1, h2⟩ := mem_ancestors_iff.mp hy
  obtain ⟨h3, h4⟩ := mem_ancestors_iff.mp hz
  rw [← h2, ← h4, h]

/-! Unfolding lemmas for the subtype test. -/

theorem isSubtypeOf_union_left (p : Ty) (ms : List Ty) (sup : Ty) :
    isSubtypeOf (Ty.union p ms) sup = allMembersBelow ms sup := by
  simp [isSubtypeOf]

theorem isSubtypeOf_nonunion_left {sub : Ty} (h : sub.isUnionT = false) (sup : Ty) :
    isSubtypeOf sub sup = typeIsSubtypeOf sub sup := by
  cases sub with
  | abstract p n g => simp [isSubtypeOf]
  | fnptr p ps r => simp [isSubtypeOf]
  | union p ms => simp [Ty.isUnionT] at h

theorem typeIsSubtypeOf_union_right (sub p : Ty) (ms : List Ty) :
    typeIsSubtypeOf sub (Ty.union p ms) = anyMemberAbove sub ms := by
  simp [typeIsSubtypeOf]

theorem typeIsSubtypeOf_nonunion_right (sub : Ty) {sup : Ty} (h : sup.isUnionT = false) :
    typeIsSubtypeOf sub sup = decide (sup ∈ ancestors sub) := by
  cases sup with
  | abstract p n g => simp [typeIsSubtypeOf]
  | fnptr p ps r => simp [typeIsSubtypeOf]
  | union p ms => simp [Ty.isUnionT] at h

theorem isSub_nonunion {sub sup : Ty} (h1 : sub.isUnionT = false)
    (h2 : sup.isUnionT = false) :
    isSubtypeOf sub sup = decide (sup ∈ ancestors sub) := by
  rw [isSubtypeOf_nonunion_left h1, typeIsSubtypeOf_nonunion_right _ h2]

theorem isSub_nonunion_iff {sub sup : Ty} (h1 : sub.isUnionT = false)
    (h2 : sup.isUnionT = false) :
    isSubtypeOf sub sup = true ↔ sup ∈ ancestors sub := by
  rw [isSub_nonunion h1 h2]; simp

theorem anyMemberAbove_iff (sub : Ty) (ms : List Ty) :
    anyMemberAbove sub ms = true ↔ ∃ m ∈ ms, typeIsSubtypeOf sub m = true := by
  induction ms with
  | nil => simp [anyMemberAbove]
  | cons m ms ih => simp [anyMemberAbove, ih, Bool.or_eq_true]

theorem allMembersBelow_iff (ms : List Ty) (sup : Ty) :
    allMembersBelow ms sup = true ↔ ∀ m ∈ ms, isSubtypeOf m sup = true := by
  induction ms with
  | nil => simp [allMembersBelow]
  | cons m ms ih => simp [allMembersBelow, ih, Bool.and_eq_true]

theorem isSubtypeOf_nonunion_union {sub : Ty} (h : sub.isUnionT = false)
    (p : Ty) (ms : List Ty) :
    isSubtypeOf sub (Ty.union p ms) = anyMemberAbove sub ms := by
  rw [isSubtypeOf_nonunion_left h, typeIsSubtypeOf_union_right]

theorem sizeOf_mem_lt_union {m p : Ty} {ms : List Ty} (h : m ∈ ms) :
    sizeOf m < sizeOf (Ty.union p ms) := by
  have := List.sizeOf_lt_of_mem h
  simp only [Ty.union.sizeOf_spec]
  omega

/-! Reflexivity of the subtype relation.  `MemReach sup a` says `a` is
reachable from `sup` by descending through union members; reflexivity is the
instance `MemReach t t`. -/

inductive MemReach : Ty → Ty → Prop where
  | refl (t : Ty) : MemReach t t
  | step (p : Ty) (ms : List Ty) (m t : Ty) (hm : m ∈ ms) (h : MemReach m t) :
      MemReach (Ty.union p ms) t

theorem memReach_member {sup a : Ty} (h : MemReach sup a) :
    ∀ {q : Ty} {ns : List Ty} {n : Ty}, a = Ty.union q ns → n ∈ ns → MemReach sup n := by
  induction h with
  | refl t =>
    intro q ns n ht hn
    subst ht
    exact MemReach.step q ns n n hn (MemReach.refl n)
  | step p ms m t hm h ih =>
    intro q ns n ht hn
    exact MemReach.step p ms m n hm (ih ht hn)

theorem memReach_isSubtypeOf :
    ∀ (n : Nat) (sup a : Ty), sizeOf a + sizeOf sup ≤ n → MemReach sup a →
      isSubtypeOf a sup = true := by
  intro n
  induction n using Nat.strong_induction_on with
  | _ n ih =>
    intro sup a hsz hr
    cases ha : a with
    | union q ns =>
      subst ha
      rw [isSubtypeOf_union_left, allMembersBelow_iff]
      intro m hm
      have hlt : sizeOf m < sizeOf (Ty.union q ns) := sizeOf_mem_lt_union hm
      exact ih (sizeOf m + sizeOf sup) (by omega) sup m (le_refl _)
        (memReach_member hr rfl hm)
    | abstract p nm g =>
      subst ha
      cases hr with
      | refl =>
        rw [isSub_nonunion (by simp [Ty.isUnionT]) (by simp [Ty.isUnionT])]
        simp [self_mem_ancestors]
      | step p' ms m t hm h =>
        rw [isSubtypeOf_nonunion_union (by simp [Ty.isUnionT]), anyMemberAbove_iff]
        refine ⟨m, hm, ?_⟩
        have hlt : sizeOf m < sizeOf (Ty.union p' ms) := sizeOf_mem_lt_union hm
        have hsub : isSubtypeOf (Ty.abstract p nm g) m = true :=
          ih (sizeOf (Ty.abstract p nm g) + sizeOf m) (by omega) m _ (le_refl _) h
        rw [isSubtypeOf_nonunion_left (by simp [Ty.isUnionT])] at hsub
        exact hsub
    | fnptr p ps r =>
      subst ha
      cases hr with
      | refl =>
        rw [isSub_nonunion (by simp [Ty.isUnionT]) (by simp [Ty.isUnionT])]
        simp [self_mem_ancestors]
      | step p' ms m t hm h =>
        rw [isSubtypeOf_nonunion_union (by simp [Ty.isUnionT]), anyMemberAbove_iff]
        refine ⟨m, hm, ?_⟩
        have hlt : sizeOf m < sizeOf (Ty.union p' ms) := sizeOf_mem_lt_union hm
        have hsub : isSubtypeOf (Ty.fnptr p ps r) m = true :=
          ih (sizeOf (Ty.fnptr p ps r) + sizeOf m) (by omega) m _ (le_refl _) h
        rw [isSubtypeOf_nonunion_left (by simp [Ty.isUnionT])] at hsub
        exact hsub

theorem isSubtypeOf_refl (t : Ty) : isSubtypeOf t t = true :=
  memReach_isSubtypeOf (sizeOf t + sizeOf t) t t (le_refl _) (MemReach.refl t)

/-! Correctness of `commonSupertype`. -/

/-- Two types whose parent chains share at least one type. -/
def relatedTy (a b : Ty) : Prop := ∃ c, c ∈ ancestors a ∧ c ∈ ancestors b

theorem mem_anc_depth_eq {b c : Ty} (h : c ∈ ancestors b) (hd : depth c = depth b) :
    c = b := by
  obtain ⟨_, h2⟩ := mem_ancestors_iff.mp h
  rw [hd, Nat.sub_self, goUp_zero] at h2
  exact h2.symm

theorem lockstep_mem_left (fuel : Nat) : ∀ a b : Ty, lockstep fuel a b ∈ ancestors a := by
  induction fuel with
  | zero => intro a b; exact self_mem_ancestors a
  | succ fuel ih =>
    intro a b
    rw [lockstep]
    split
    · exact self_mem_ancestors a
    · split
      · next pa pb hpa hpb =>
        exact ancestors_trans (parent_mem_ancestors hpa) (ih pa pb)
      · exact self_mem_ancestors a

theorem lockstep_spec (fuel : Nat) :
    ∀ a b c : Ty, depth a = depth b → depth a < fuel →
      c ∈ ancestors a → c ∈ ancestors b →
      lockstep fuel a b ∈ ancestors b ∧ c ∈ ancestors (lockstep fuel a b) := by
  induction fuel with
  | zero => intro a b c _ hf; omega
  | succ fuel ih =>
    intro a b c hd hf hca hcb
    rw [lockstep]
    split
    · next heq => subst heq; exact ⟨self_mem_ancestors a, hca⟩
    · next hne =>
      have hcna : c ≠ a := by
        intro h
        apply hne
        have hab : a ∈ ancestors b := h ▸ hcb
        exact mem_anc_depth_eq hab hd
      have hcnb : c ≠ b := by
        intro h
        apply hne
        have hba : b ∈ ancestors a := h ▸ hca
        exact (mem_anc_depth_eq hba hd.symm).symm
      split
      · next pa pb hpa hpb =>
        have hca' : c ∈ ancestors pa := by
          rw [ancestors_parent hpa] at hca
          rcases List.mem_cons.mp hca with h | h
          · exact absurd h hcna
          · exact h
        have hcb' : c ∈ ancestors pb := by
          rw [ancestors_parent hpb] at hcb
          rcases List.mem_cons.mp hcb with h | h
          · exact absurd h hcnb
          · exact h
        have hdp : depth pa = depth pb := by
          have h1 := depth_parent hpa
          have h2 := depth_parent hpb
          omega
        have hfp : depth pa < fuel := by
          have h1 := depth_parent hpa
          omega
        obtain ⟨h1, h2⟩ := ih pa pb c hdp hfp hca' hcb'
        exact ⟨ancestors_trans (parent_mem_ancestors hpb) h1, h2⟩
      · next harm =>
        exfalso
        cases hpa : parentOf a with
        | none =>
          have : c = a := by
            rw [ancestors_root hpa] at hca
            simpa using hca
          exact hcna this
        | some pa =>
          cases hpb : parentOf b with
          | some pb => exact harm pa pb hpa hpb
          | none =>
            have : c = b := by
              rw [ancestors_root hpb] at hcb
              simpa using hcb
            exact hcnb this

theorem lockstep_unrelated (fuel : Nat) :
    ∀ a b : Ty, depth a = depth b → depth a < fuel →
      (∀ c, c ∈ ancestors a → c ∈ ancestors b → False) →
      parentOf (lockstep fuel a b) = none := by
  induction fuel with
  | zero => intro a b _ hf; omega
  | succ fuel ih =>
    intro a b hd hf hnr
    rw [lockstep]
    split
    · next heq =>
      subst heq
      exact absurd (hnr a (self_mem_ancestors a) (self_mem_ancestors a)) (by simp)
    · next hne =>
      split
      · next pa pb hpa hpb =>
        refine ih pa pb ?_ ?_ ?_
        · have h1 := depth_parent hpa
          have h2 := depth_parent hpb
          omega
        · have h1 := depth_parent hpa
          omega
        · intro c h1 h2
          exact hnr c (ancestors_trans (parent_mem_ancestors hpa) h1)
            (ancestors_trans (parent_mem_ancestors hpb) h2)
      · next harm =>
        cases hpa : parentOf a with
        | none => rfl
        | some pa =>
          cases hpb : parentOf b with
          | some pb => exact absurd (harm pa pb hpa hpb) (by simp)
          | none =>
            have h0 : depth b = 0 := depth_root hpb
            have h1 : depth a = 0 := by omega
            rw [depth_zero_iff] at h1
            rw [h1] at hpa
            cases hpa

theorem mem_anc_goUp {a c : Ty} (h : c ∈ ancestors a) {d : Nat}
    (h1 : depth c ≤ d) (h2 : d ≤ depth a) :
    c ∈ ancestors (goUp (depth a - d) a) := by
  obtain ⟨hc1, hc2⟩ := mem_ancestors_iff.mp h
  have hda : depth (goUp (depth a - d) a) = d := by
    rw [depth_goUp (by omega)]; omega
  refine mem_ancestors_iff.mpr ⟨by rw [hda]; exact h1, ?_⟩
  rw [hda]
  have heq : depth a - depth c = (d - depth c) + (depth a - d) := by omega
  rw [heq, goUp_add] at hc2
  exact hc2

theorem commonSupertype_mem_left (a b : Ty) : commonSupertype a b ∈ ancestors a := by
  unfold commonSupertype
  split
  · exact ancestors_trans (goUp_mem_ancestors _ _) (lockstep_mem_left _ _ _)
  · exact lockstep_mem_left _ _ _

/-- `CommonSupertype` is a supertype of both arguments and the lowest common
one, whenever the arguments share any chain element. -/
theorem commonSupertype_spec {a b : Ty} (hrel : relatedTy a b) :
    commonSupertype a b ∈ ancestors a ∧ commonSupertype a b ∈ ancestors b ∧
      ∀ c, c ∈ ancestors a → c ∈ ancestors b → c ∈ ancestors (commonSupertype a b) := by
  obtain ⟨c0, hc0a, hc0b⟩ := hrel
  refine ⟨commonSupertype_mem_left a b, ?_⟩
  unfold commonSupertype
  split
  · next hle =>
    have hkey : ∀ c, c ∈ ancestors a → c ∈ ancestors b →
        c ∈ ancestors (goUp (depth a - depth b) a) := fun c hca hcb =>
      mem_anc_goUp hca (depth_le_of_mem_ancestors hcb) hle
    have hda : depth (goUp (depth a - depth b) a) = depth b := by
      rw [depth_goUp (show depth a - depth b ≤ depth a by omega)]; omega
    constructor
    · exact (lockstep_spec _ _ _ c0 hda (by omega) (hkey c0 hc0a hc0b) hc0b).1
    · intro c hca hcb
      exact (lockstep_spec _ _ _ c hda (by omega) (hkey c hca hcb) hcb).2
  · next hgt =>
    have hlt : depth a ≤ depth b := by omega
    have hkey : ∀ c, c ∈ ancestors a → c ∈ ancestors b →
        c ∈ ancestors (goUp (depth b - depth a) b) := fun c hca hcb =>
      mem_anc_goUp hcb (depth_le_of_mem_ancestors hca) hlt
    have hdb : depth (goUp (depth b - depth a) b) = depth a := by
      rw [depth_goUp (show depth b - depth a ≤ depth b by omega)]; omega
    constructor
    · have h1 := (lockstep_spec (depth a + 1) a (goUp (depth b - depth a) b) c0
        hdb.symm (by omega) hc0a (hkey c0 hc0a hc0b)).1
      exact ancestors_trans (goUp_mem_ancestors _ _) h1
    · intro c hca hcb
      exact (lockstep_spec _ _ _ c hdb.symm (by omega) hca (hkey c hca hcb)).2

/-- When the arguments share no chain element, `CommonSupertype` degrades to
a parentless type (a root). -/
theorem commonSupertype_unrelated {a b : Ty} (h : ¬ relatedTy a b) :
    parentOf (commonSupertype a b) = none := by
  unfold commonSupertype
  split
  · next hle =>
    have hda : depth (goUp (depth a - depth b) a) = depth b := by
      rw [depth_goUp (show depth a - depth b ≤ depth a by omega)]; omega
    refine lockstep_unrelated _ _ _ hda (by omega) ?_
    intro c h1 h2
    exact h ⟨c, ancestors_trans (goUp_mem_ancestors _ _) h1, h2⟩
  · next hgt =>
    have hdb : depth (goUp (depth b - depth a) b) = depth a := by
      rw [depth_goUp (show depth b - depth a ≤ depth b by omega)]; omega
    refine lockstep_unrelated _ _ _ hdb.symm (by omega) ?_
    intro c h1 h2
    exact h ⟨c, h1, ancestors_trans (goUp_mem_ancestors _ _) h2⟩

/-- The common-supertype of comparable types is the larger one. -/
theorem commonSupertype_of_mem {a b : Ty} (h : b ∈ ancestors a) :
    commonSupertype a b = b := by
  have hd : depth b ≤ depth a := depth_le_of_mem_ancestors h
  unfold commonSupertype
  rw [if_pos hd, (mem_ancestors_iff.mp h).2, lockstep]
  simp

/-- Any common upper bound on the chains is above the common supertype. -/
theorem commonSupertype_lowest {a b c : Ty} (h1 : c ∈ ancestors a)
    (h2 : c ∈ ancestors b) : c ∈ ancestors (commonSupertype a b) :=
  (commonSupertype_spec ⟨c, h1, h2⟩).2.2 c h1 h2

/-! Unfolding lemmas for `extend`, `extendList`, `fromType`, `insertMem`. -/

theorem extend_union (u : USt) (p : Ty) (ms : List Ty) :
    extend u (Ty.union p ms) = extendList u ms := by
  simp [extend]

theorem extend_nonunion {t : Ty} (ht : t.isUnionT = false) (u : USt) :
    extend u t =
      if isSubtypeOf t (mkUnionTy u) then u
      else { parent := commonSupertype u.parent t,
             members := insertMem t (u.members.filter fun m => !(isSubtypeOf m t)) } := by
  cases t with
  | abstract p n g => simp [extend]
  | fnptr p ps r => simp [extend]
  | union p ms => simp [Ty.isUnionT] at ht

theorem extendList_nil (u : USt) : extendList u [] = u := by
  simp [extendList]

theorem extendList_cons (u : USt) (m : Ty) (ms : List Ty) :
    extendList u (m :: ms) = extendList (extend u m) ms := by
  simp [extendList]

theorem fromType_nonunion {t : Ty} (ht : t.isUnionT = false) :
    fromType t = { parent := t, members := [t] } := by
  cases t with
  | abstract p n g => rfl
  | fnptr p ps r => rfl
  | union p ms => simp [Ty.isUnionT] at ht

theorem insertMem_mem (t x : Ty) (l : List Ty) :
    x ∈ insertMem t l ↔ x ∈ l ∨ x = t := by
  unfold insertMem
  split
  · next h =>
    constructor
    · exact Or.inl
    · rintro (hx | hx)
      · exact hx
      · rw [hx]; exact h
  · simp [List.mem_append]

theorem insertMem_of_not_mem {t : Ty} {l : List Ty} (h : t ∉ l) :
    insertMem t l = l ++ [t] := by
  unfold insertMem
  rw [if_neg h]

/-- The guard of `Extend` for a non-union argument: `t` is covered by the
union iff some retained member is on `t`'s parent chain. -/
theorem covered_iff {t : Ty} (ht : t.isUnionT = false) (u : USt)
    (hm : ∀ m ∈ u.members, m.isUnionT = false) :
    isSubtypeOf t (mkUnionTy u) = true ↔ ∃ m ∈ u.members, m ∈ ancestors t := by
  rw [show mkUnionTy u = Ty.union u.parent u.members from rfl,
    isSubtypeOf_nonunion_union ht, anyMemberAbove_iff]
  constructor
  · rintro ⟨m, hm1, hm2⟩
    rw [typeIsSubtypeOf_nonunion_right _ (hm m hm1)] at hm2
    exact ⟨m, hm1, by simpa using hm2⟩
  · rintro ⟨m, hm1, hm2⟩
    refine ⟨m, hm1, ?_⟩
    rw [typeIsSubtypeOf_nonunion_right _ (hm m hm1)]
    simpa using hm2

/-! The invariants of reachable `UnionType` states. -/

/-- Invariants maintained by every reachable `UnionType` state: the member
set is nonempty, duplicate-free and union-free; no retained member is on the
chain of another retained member; the parent is below every common chain
upper bound of the members; and when the set is a singleton, the parent is
that very member. -/
structure Inv (u : USt) : Prop where
  ne : u.members ≠ []
  nodup : u.members.Nodup
  nonunion : ∀ m ∈ u.members, m.isUnionT = false
  antichain : ∀ m ∈ u.members, ∀ m' ∈ u.members, m ≠ m' → m' ∉ ancestors m
  parentLow : ∀ c, (∀ m ∈ u.members, c ∈ ancestors m) → c ∈ ancestors u.parent
  single : ∀ m, u.members = [m] → u.parent = m

theorem fromType_inv {t : Ty} (ht : t.isUnionT = false) : Inv (fromType t) := by
  rw [fromType_nonunion ht]
  refine ⟨by simp, by simp, ?_, ?_, ?_, ?_⟩
  · intro m hm
    simp at hm
    rw [hm]; exact ht
  · intro m hm m' hm' hne
    simp at hm hm'
    rw [hm, hm'] at hne
    exact absurd rfl hne
  · intro c hc
    exact hc t (by simp)
  · intro m hm
    simpa using hm

theorem extend_inv_nonunion {t : Ty} (ht : t.isUnionT = false) {u : USt}
    (hu : Inv u) : Inv (extend u t) := by
  rw [extend_nonunion ht]
  split
  · exact hu
  · next hg =>
    have hnotcov : ∀ m ∈ u.members, m ∉ ancestors t := by
      intro m hm hmem
      exact hg ((covered_iff ht u hu.nonunion).mpr ⟨m, hm, hmem⟩)
    have hkept_mem : ∀ x, x ∈ u.members.filter (fun m => !(isSubtypeOf m t)) ↔
        x ∈ u.members ∧ t ∉ ancestors x := by
      intro x
      rw [List.mem_filter]
      constructor
      · rintro ⟨h1, h2⟩
        rw [isSub_nonunion (hu.nonunion x h1) ht] at h2
        refine ⟨h1, ?_⟩
        simpa using h2
      · rintro ⟨h1, h2⟩
        refine ⟨h1, ?_⟩
        rw [isSub_nonunion (hu.nonunion x h1) ht]
        simpa using h2
    have htnm : t ∉ u.members := fun h => hnotcov t h (self_mem_ancestors t)
    have htk : t ∉ u.members.filter (fun m => !(isSubtypeOf m t)) := by
      intro h
      exact htnm ((hkept_mem t).mp h).1
    have hmem' : ∀ x, x ∈ insertMem t (u.members.filter fun m => !(isSubtypeOf m t)) ↔
        (x ∈ u.members ∧ t ∉ ancestors x) ∨ x = t := by
      intro x
      rw [insertMem_mem, hkept_mem x]
    refine ⟨?_, ?_, ?_, ?_, ?_, ?_⟩
    · show insertMem t (u.members.filter fun m => !(isSubtypeOf m t)) ≠ []
      intro h
      have := (hmem' t).mpr (Or.inr rfl)
      rw [h] at this
      simp at this
    · rw [insertMem_of_not_mem htk]
      rw [List.nodup_append]
      exact ⟨List.Nodup.filter _ hu.nodup, by simp, by simpa using htk⟩
    · intro m hm
      rcases (hmem' m).mp hm with ⟨h1, _⟩ | h1
      · exact hu.nonunion m h1
      · rw [h1]; exact ht
    · intro m hm m' hm' hne
      rcases (hmem' m).mp hm with ⟨h1, h2⟩ | h1 <;>
        rcases (hmem' m').mp hm' with ⟨h3, h4⟩ | h3
      · exact hu.antichain m h1 m' h3 hne
      · rw [h3]; exact h2
      · rw [h1]; exact fun hc => hnotcov m' h3 hc
      · rw [h1, h3] at hne; exact absurd rfl hne
    · intro c hc
      have hct : c ∈ ancestors t := hc t ((hmem' t).mpr (Or.inr rfl))
      have hcm : ∀ m ∈ u.members, c ∈ ancestors m := by
        intro m hm
        by_cases hdrop : t ∈ ancestors m
        · exact ancestors_trans hdrop hct
        · exact hc m ((hmem' m).mpr (Or.inl ⟨hm, hdrop⟩))
      exact commonSupertype_lowest (hu.parentLow c hcm) hct
    · intro m0 hm0
      rw [insertMem_of_not_mem htk] at hm0
      have hkept_nil : u.members.filter (fun m => !(isSubtypeOf m t)) = [] ∧ t = m0 := by
        cases hk : u.members.filter (fun m => !(isSubtypeOf m t)) with
        | nil =>
          rw [hk] at hm0
          simpa using hm0
        | cons y ys =>
          rw [hk] at hm0
          have hlen := congrArg List.length hm0
          simp [List.length_append] at hlen
      obtain ⟨hnil, hteq⟩ := hkept_nil
      have hub : ∀ m ∈ u.members, t ∈ ancestors m := by
        intro m hm
        by_contra hneg
        have : m ∈ u.members.filter (fun mm => !(isSubtypeOf mm t)) :=
          (hkept_mem m).mpr ⟨hm, hneg⟩
        rw [hnil] at this
        simp at this
      have hpt : t ∈ ancestors u.parent := hu.parentLow t hub
      show commonSupertype u.parent t = m0
      rw [commonSupertype_of_mem hpt]
      exact hteq

/-- `Extend` preserves the union invariants, for any argument (union
arguments are flattened recursively). -/
theorem extend_extendList_inv (n : Nat) :
    (∀ t : Ty, ∀ u : USt, sizeOf t ≤ n → Inv u → Inv (extend u t)) ∧
    (∀ ms : List Ty, ∀ u : USt, sizeOf ms ≤ n → Inv u → Inv (extendList u ms)) := by
  induction n using Nat.strong_induction_on with
  | _ n ih =>
    constructor
    · intro t u hsz hu
      cases t with
      | abstract p nm g => exact extend_inv_nonunion (by simp [Ty.isUnionT]) hu
      | fnptr p ps r => exact extend_inv_nonunion (by simp [Ty.isUnionT]) hu
      | union p ms =>
        rw [extend_union]
        have hlt : sizeOf ms < sizeOf (Ty.union p ms) := by
          simp only [Ty.union.sizeOf_spec]
          omega
        exact (ih (sizeOf ms) (by omega)).2 ms u (le_refl _) hu
    · intro ms u hsz hu
      cases ms with
      | nil => rw [extendList_nil]; exact hu
      | cons m ms' =>
        rw [extendList_cons]
        have h1 : sizeOf m < sizeOf (m :: ms') := by
          simp only [List.cons.sizeOf_spec]
          omega
        have h2 : sizeOf ms' < sizeOf (m :: ms') := by
          simp only [List.cons.sizeOf_spec]
          omega
        exact (ih (sizeOf ms') (by omega)).2 ms' (extend u m) (le_refl _)
          ((ih (sizeOf m) (by omega)).1 m u (le_refl _) hu)

theorem extend_inv (u : USt) (t : Ty) (hu : Inv u) : Inv (extend u t) :=
  (extend_extendList_inv (sizeOf t)).1 t u (le_refl _) hu

theorem extendList_inv (u : USt) (ms : List Ty) (hu : Inv u) : Inv (extendList u ms) :=
  (extend_extendList_inv (sizeOf ms)).2 ms u (le_refl _) hu

/-- Every reachable `UnionType` state satisfies the invariants. -/
theorem reachable_inv {u : USt} (h : Reachable u) : Inv u := by
  induction h with
  | base t ht => exact fromType_inv ht
  | step u t hr ih => exact extend_inv u t ih

/-! The final member set of a sequence of `Extend` calls: it is the set of
chain-maximal elements of the old members together with the added types,
which is insensitive to the order of addition. -/

/-- `x` is a maximal element of the set `S` for the parent-chain order: `x`
is in `S` and nothing of `S` sits strictly above `x` on its chain. -/
def IsMax (S : Ty → Prop) (x : Ty) : Prop :=
  S x ∧ ∀ y, S y → y ∈ ancestors x → y = x

theorem isMax_congr {S T : Ty → Prop} (h : ∀ z, S z ↔ T z) (x : Ty) :
    IsMax S x ↔ IsMax T x := by
  unfold IsMax
  constructor
  · rintro ⟨h1, h2⟩
    exact ⟨(h x).mp h1, fun y hy => h2 y ((h y).mpr hy)⟩
  · rintro ⟨h1, h2⟩
    exact ⟨(h x).mpr h1, fun y hy => h2 y ((h y).mp hy)⟩

theorem sizeOf_of_mem_ancestors {x y : Ty} (h : y ∈ ancestors x) :
    y = x ∨ sizeOf y < sizeOf x := by
  induction x using chain_ind with
  | h x ih =>
    rw [ancestors_eq] at h
    rcases List.mem_cons.mp h with h | h
    · exact Or.inl h
    · cases hp : parentOf x with
      | none => rw [hp] at h; simp at h
      | some p =>
        rw [hp] at h
        have hsz := parentOf_sizeOf hp
        rcases ih p hp h with h | h
        · right; rw [h]; exact hsz
        · right; omega

/-- Every element of `S` has a maximal element of `S` above it (ascending
chains are finite because ancestors are structurally smaller). -/
theorem exists_max_above_aux (S : Ty → Prop) :
    ∀ (n : Nat) (y : Ty), sizeOf y ≤ n → S y → ∃ z, IsMax S z ∧ z ∈ ancestors y := by
  intro n
  induction n using Nat.strong_induction_on with
  | _ n ih =>
    intro y hsz hy
    by_cases hmax : ∀ w, S w → w ∈ ancestors y → w = y
    · exact ⟨y, ⟨hy, hmax⟩, self_mem_ancestors y⟩
    · push_neg at hmax
      obtain ⟨w, hw1, hw2, hw3⟩ := hmax
      have hlt : sizeOf w < sizeOf y := by
        rcases sizeOf_of_mem_ancestors hw2 with h | h
        · exact absurd h hw3
        · exact h
      obtain ⟨z, hz1, hz2⟩ := ih (sizeOf w) (by omega) w (le_refl _) hw1
      exact ⟨z, hz1, ancestors_trans hw2 hz2⟩

theorem exists_max_above {S : Ty → Prop} {y : Ty} (hy : S y) :
    ∃ z, IsMax S z ∧ z ∈ ancestors y :=
  exists_max_above_aux S (sizeOf y) y (le_refl _) hy

/-- Taking maximal elements first and then adding more elements does not
change the maximal elements of the union. -/
theorem isMax_absorb (A B : Ty → Prop) (x : Ty) :
    IsMax (fun z => IsMax A z ∨ B z) x ↔ IsMax (fun z => A z ∨ B z) x := by
  constructor
  · rintro ⟨h1, h2⟩
    refine ⟨?_, ?_⟩
    · rcases h1 with h | h
      · exact Or.inl h.1
      · exact Or.inr h
    · intro y hy hyx
      rcases hy with hyA | hyB
      · obtain ⟨z, hz1, hz2⟩ := exists_max_above hyA
        have hzx : z ∈ ancestors x := ancestors_trans hyx hz2
        have hzeq : z = x := h2 z (Or.inl hz1) hzx
        rw [hzeq] at hz2
        exact (ancestors_antisymm hyx hz2).symm
      · exact h2 y (Or.inr hyB) hyx
  · rintro ⟨h1, h2⟩
    refine ⟨?_, ?_⟩
    · rcases h1 with h | h
      · refine Or.inl ⟨h, ?_⟩
        intro y hy hyx
        exact h2 y (Or.inl hy) hyx
      · exact Or.inr h
    · intro y hy hyx
      rcases hy with hyA | hyB
      · exact h2 y (Or.inl hyA.1) hyx
      · exact h2 y (Or.inr hyB) hyx

theorem inv_max_of_mem {u : USt} (hu : Inv u) {x : Ty} (hx : x ∈ u.members) :
    ∀ y, y ∈ u.members → y ∈ ancestors x → y = x := by
  intro y hy hyx
  by_contra hne
  exact hu.antichain x hx y hy (fun h => hne h.symm) hyx

/-- Membership in the member set after one non-union `Extend`: exactly the
maximal elements of the old member set together with the new type. -/
theorem extend_mem_char {t : Ty} (ht : t.isUnionT = false) {u : USt}
    (hu : Inv u) (x : Ty) :
    x ∈ (extend u t).members ↔ IsMax (fun z => z ∈ u.members ∨ z = t) x := by
  rw [extend_nonunion ht]
  split
  · next hg =>
    have hcov := (covered_iff ht u hu.nonunion).mp hg
    obtain ⟨m0, hm0, hm0t⟩ := hcov
    constructor
    · intro hx
      refine ⟨Or.inl hx, ?_⟩
      intro y hy hyx
      rcases hy with hy | hy
      · exact inv_max_of_mem hu hx y hy hyx
      · subst hy
        have hm0x : m0 ∈ ancestors x := ancestors_trans hyx hm0t
        have : m0 = x := inv_max_of_mem hu hx m0 hm0 hm0x
        subst this
        exact (ancestors_antisymm hyx hm0t).symm
    · rintro ⟨h1, h2⟩
      rcases h1 with h1 | h1
      · exact h1
      · subst h1
        have : m0 = x := h2 m0 (Or.inl hm0) hm0t
        rw [← this]
        exact hm0
  · next hg =>
    have hnotcov : ∀ m ∈ u.members, m ∉ ancestors t := by
      intro m hm hmem
      exact hg ((covered_iff ht u hu.nonunion).mpr ⟨m, hm, hmem⟩)
    have hkept_mem : ∀ z, z ∈ u.members.filter (fun m => !(isSubtypeOf m t)) ↔
        z ∈ u.members ∧ t ∉ ancestors z := by
      intro z
      rw [List.mem_filter]
      constructor
      · rintro ⟨h1, h2⟩
        rw [isSub_nonunion (hu.nonunion z h1) ht] at h2
        exact ⟨h1, by simpa using h2⟩
      · rintro ⟨h1, h2⟩
        refine ⟨h1, ?_⟩
        rw [isSub_nonunion (hu.nonunion z h1) ht]
        simpa using h2
    have hmem' : x ∈ insertMem t (u.members.filter fun m => !(isSubtypeOf m t)) ↔
        (x ∈ u.members ∧ t ∉ ancestors x) ∨ x = t := by
      rw [insertMem_mem, hkept_mem x]
    show x ∈ insertMem t (u.members.filter fun m => !(isSubtypeOf m t)) ↔ _
    rw [hmem']
    constructor
    · rintro (⟨h1, h2⟩ | h1)
      · refine ⟨Or.inl h1, ?_⟩
        intro y hy hyx
        rcases hy with hy | hy
        · exact inv_max_of_mem hu h1 y hy hyx
        · subst hy; exact absurd hyx h2
      · subst h1
        refine ⟨Or.inr rfl, ?_⟩
        intro y hy hyx
        rcases hy with hy | hy
        · exact absurd hyx (hnotcov y hy)
        · exact hy
    · rintro ⟨h1, h2⟩
      rcases h1 with h1 | h1
      · by_cases hxt : t ∈ ancestors x
        · have : t = x := h2 t (Or.inr rfl) hxt
          exact Or.inr this.symm
        · exact Or.inl ⟨h1, hxt⟩
      · exact Or.inr h1

/-- Membership in the member set after a sequence of non-union `Extend`
calls: exactly the maximal elements of old members plus added types. -/
theorem extendList_mem_char :
    ∀ (ms : List Ty) (u : USt), Inv u → (∀ m ∈ ms, m.isUnionT = false) →
      ∀ x, x ∈ (extendList u ms).members ↔
        IsMax (fun z => z ∈ u.members ∨ z ∈ ms) x := by
  intro ms
  induction ms with
  | nil =>
    intro u hu _ x
    rw [extendList_nil]
    constructor
    · intro hx
      refine ⟨Or.inl hx, ?_⟩
      intro y hy hyx
      rcases hy with hy | hy
      · exact inv_max_of_mem hu hx y hy hyx
      · simp at hy
    · rintro ⟨h1, _⟩
      rcases h1 with h1 | h1
      · exact h1
      · simp at h1
  | cons t ms' ih =>
    intro u hu hms x
    rw [extendList_cons]
    have ht : t.isUnionT = false := hms t (by simp)
    have hms' : ∀ m ∈ ms', m.isUnionT = false := fun m hm => hms m (by simp [hm])
    rw [ih (extend u t) (extend_inv u t hu) hms' x]
    have step1 : ∀ z, (z ∈ (extend u t).members ∨ z ∈ ms') ↔
        (IsMax (fun w => w ∈ u.members ∨ w = t) z ∨ z ∈ ms') := by
      intro z
      rw [extend_mem_char ht hu z]
    rw [isMax_congr step1 x,
      isMax_absorb (fun w => w ∈ u.members ∨ w = t) (fun w => w ∈ ms') x]
    refine isMax_congr (fun z => ?_) x
    constructor
    · rintro ((h | h) | h)
      · exact Or.inl h
      · exact Or.inr (by simp [h])
      · exact Or.inr (by simp [h])
    · rintro (h | h)
      · exact Or.inl (Or.inl h)
      · rcases List.mem_cons.mp h with h | h
        · exact Or.inl (Or.inr h)
        · exact Or.inr h

/-- The final member set does not depend on the order of extension. -/
theorem extendList_perm {u : USt} (hu : Inv u) {ms ms' : List Ty}
    (hms : ∀ m ∈ ms, m.isUnionT = false) (hp : ms.Perm ms') :
    (extendList u ms).members.Perm (extendList u ms').members := by
  have hms' : ∀ m ∈ ms', m.isUnionT = false := fun m hm => hms m (hp.mem_iff.mpr hm)
  refine (List.perm_ext_iff_of_nodup (extendList_inv u ms hu).nodup
    (extendList_inv u ms' hu).nodup).mpr ?_
  intro a
  rw [extendList_mem_char ms u hu hms a, extendList_mem_char ms' u hu hms' a]
  exact isMax_congr (fun z => or_congr Iff.rfl hp.mem_iff) a

/-! The stored (sorted) member sequence is determined by the member set:
two sorted lists with the same elements under an address order that is
injective across them are equal. -/

theorem sorted_addr_eq {addr : Ty → Nat} :
    ∀ {l₁ l₂ : List Ty},
      (∀ x ∈ l₁, ∀ y ∈ l₂, addr x = addr y → x = y) →
      l₁.Perm l₂ →
      l₁.Sorted (fun a b => addr a ≤ addr b) →
      l₂.Sorted (fun a b => addr a ≤ addr b) →
      l₁ = l₂ := by
  intro l₁
  induction l₁ with
  | nil =>
    intro l₂ _ hp _ _
    exact hp.nil_eq
  | cons a l₁ ih =>
    intro l₂ hinj hp hs₁ hs₂
    cases l₂ with
    | nil => exact absurd hp.symm.nil_eq (by simp)
    | cons b l₂ =>
      obtain ⟨ha1, ha2⟩ := List.sorted_cons.mp hs₁
      obtain ⟨hb1, hb2⟩ := List.sorted_cons.mp hs₂
      have hab : a = b := by
        have hmema : a ∈ b :: l₂ := hp.mem_iff.mp (by simp)
        have hmemb : b ∈ a :: l₁ := hp.mem_iff.mpr (by simp)
        rcases List.mem_cons.mp hmema with h | h
        · exact h
        · rcases List.mem_cons.mp hmemb with h' | h'
          · exact h'.symm
          · have h1 : addr b ≤ addr a := hb1 a h
            have h2 : addr a ≤ addr b := ha1 b h'
            exact hinj a (by simp) b (by simp) (by omega)
      subst hab
      have hp' : l₁.Perm l₂ := hp.cons_inv
      have hinj' : ∀ x ∈ l₁, ∀ y ∈ l₂, addr x = addr y → x = y := by
        intro x hx y hy
        exact hinj x (by simp [hx]) y (by simp [hy])
      rw [ih hinj' hp' ha2 hb2]

theorem sortByAddr_sorted (addr : Ty → Nat) (l : List Ty) :
    (sortByAddr addr l).Sorted (fun a b => addr a ≤ addr b) := by
  haveI : IsTotal Ty (fun a b => addr a ≤ addr b) := ⟨fun a b => Nat.le_total _ _⟩
  haveI : IsTrans Ty (fun a b => addr a ≤ addr b) := ⟨fun a b c => Nat.le_trans⟩
  exact List.sorted_insertionSort _ l

theorem sortByAddr_perm (addr : Ty → Nat) (l : List Ty) :
    (sortByAddr addr l).Perm l :=
  List.perm_insertionSort _ l

theorem sortByAddr_eq_of_perm {addr : Ty → Nat} {l₁ l₂ : List Ty}
    (hinj : ∀ x ∈ l₁, ∀ y ∈ l₂, addr x = addr y → x = y) (hp : l₁.Perm l₂) :
    sortByAddr addr l₁ = sortByAddr addr l₂ := by
  refine sorted_addr_eq ?_ ?_ (sortByAddr_sorted addr l₁) (sortByAddr_sorted addr l₂)
  · intro x hx y hy
    exact hinj x ((sortByAddr_perm addr l₁).mem_iff.mp hx)
      y ((sortByAddr_perm addr l₂).mem_iff.mp hy)
  · exact ((sortByAddr_perm addr l₁).trans hp).trans (sortByAddr_perm addr l₂).symm

/-! Characterization of the signature-compatibility loop. -/

theorem checkArgs_iff :
    ∀ (ds as : List Ty) (va : Bool),
      checkArgs ds as va = true ↔
        ((va = false → as.length = ds.length) ∧
         (va = true → ds.length ≤ as.length) ∧
         ∀ p ∈ ds.zip as, isAssignableFrom p.1 p.2 = true) := by
  intro ds
  induction ds with
  | nil =>
    intro as va
    cases as with
    | nil => cases va <;> simp [checkArgs]
    | cons a as => cases va <;> simp [checkArgs]
  | cons d ds ih =>
    intro as va
    cases as with
    | nil => cases va <;> simp [checkArgs]
    | cons a as =>
      have := ih as va
      cases va <;>
        simp_all [checkArgs, List.zip_cons_cons, Nat.succ_le_succ_iff] <;>
        tauto

/-! The claims. -/

/-- C1: The subtype relation is reflexive: for every type T (including every
UnionType), IsSubtypeOf(T, T) returns true. -/
theorem claim_C1_subtype_reflexive (T : Ty) : isSubtypeOf T T = true :=
  isSubtypeOf_refl T

/-- C2: For every UnionType U and every non-union type t that is a subtype of
some retained member of U, U.Extend(t) is a no-op: U's member set and U's
parent are unchanged afterwards. -/
theorem claim_C2_extend_noop (u : USt) (t : Ty) (ht : t.isUnionT = false)
    (hcov : ∃ m ∈ u.members, isSubtypeOf t m = true) :
    (extend u t).members = u.members ∧ (extend u t).parent = u.parent := by
  have hg : isSubtypeOf t (mkUnionTy u) = true := by
    rw [show mkUnionTy u = Ty.union u.parent u.members from rfl,
      isSubtypeOf_nonunion_union ht, anyMemberAbove_iff]
    obtain ⟨m, hm, hsub⟩ := hcov
    refine ⟨m, hm, ?_⟩
    rw [← isSubtypeOf_nonunion_left ht]
    exact hsub
  rw [extend_nonunion ht, if_pos hg]
  exact ⟨rfl, rfl⟩

/-- C2 witness: extending the union {Number} with its subtype Smi changes
nothing. -/
theorem claim_C2_witness :
    (extend (fromType tNumber) tSmi).members = (fromType tNumber).members ∧
    (extend (fromType tNumber) tSmi).parent = (fromType tNumber).parent :=
  claim_C2_extend_noop (fromType tNumber) tSmi (by decide)
    ⟨tNumber, by decide, by decide⟩

/-- C3: For every UnionType U and every non-union type t not already covered
by U, after U.Extend(t) the member set contains t, contains no former member
that was a subtype of t (in particular every strict subtype is dropped),
retains every former member that was not a subtype of t, and U's parent
equals CommonSupertype(old parent, t); extending the singleton union {A}
with a supertype S of A yields member set {S}. -/
theorem claim_C3_extend_insert (u : USt) (t : Ty) (ht : t.isUnionT = false)
    (hnc : isSubtypeOf t (mkUnionTy u) = false) :
    t ∈ (extend u t).members ∧
    (∀ m ∈ u.members, isSubtypeOf m t = true → m ∉ (extend u t).members) ∧
    (∀ m ∈ u.members, isSubtypeOf m t = false → m ∈ (extend u t).members) ∧
    (extend u t).parent = commonSupertype u.parent t ∧
    (∀ A S : Ty, A.isUnionT = false → S.isUnionT = false → S ∈ ancestors A →
      (extend (fromType A) S).members = [S]) := by
  have hg : ¬ (isSubtypeOf t (mkUnionTy u) = true) := by
    rw [hnc]; simp
  have hmem : ∀ x, x ∈ (extend u t).members ↔
      (x ∈ u.members.filter (fun m => !(isSubtypeOf m t)) ∨ x = t) := by
    intro x
    rw [extend_nonunion ht, if_neg hg]
    exact insertMem_mem t x _
  refine ⟨?_, ?_, ?_, ?_, ?_⟩
  · exact (hmem t).mpr (Or.inr rfl)
  · intro m hm hsub hcontra
    rcases (hmem m).mp hcontra with h | h
    · rw [List.mem_filter, hsub] at h
      simp at h
    · subst h
      apply hg
      rw [show mkUnionTy u = Ty.union u.parent u.members from rfl,
        isSubtypeOf_nonunion_union ht, anyMemberAbove_iff]
      refine ⟨m, hm, ?_⟩
      rw [typeIsSubtypeOf_nonunion_right _ ht]
      simp [self_mem_ancestors]
  · intro m hm hsub
    refine (hmem m).mpr (Or.inl ?_)
    rw [List.mem_filter, hsub]
    simp [hm]
  · rw [extend_nonunion ht, if_neg hg]
  · intro A S hA hS hSA
    by_cases hAS : S = A
    · subst hAS
      have hg2 : isSubtypeOf S (mkUnionTy (fromType S)) = true := by
        rw [fromType_nonunion hS,
          show mkUnionTy { parent := S, members := [S] } = Ty.union S [S] from rfl,
          isSubtypeOf_nonunion_union hS, anyMemberAbove_iff]
        refine ⟨S, by simp, ?_⟩
        rw [typeIsSubtypeOf_nonunion_right _ hS]
        simp [self_mem_ancestors]
      rw [extend_nonunion hS, if_pos hg2, fromType_nonunion hS]
    · have hg2 : ¬ (isSubtypeOf S (mkUnionTy (fromType A)) = true) := by
        rw [fromType_nonunion hA,
          show mkUnionTy { parent := A, members := [A] } = Ty.union A [A] from rfl,
          isSubtypeOf_nonunion_union hS, anyMemberAbove_iff]
        rintro ⟨m, hm, hsub⟩
        simp at hm
        subst hm
        rw [typeIsSubtypeOf_nonunion_right _ hA] at hsub
        simp at hsub
        exact hAS (ancestors_antisymm hsub hSA)
      rw [extend_nonunion hS, if_neg hg2, fromType_nonunion hA]
      have hdrop : isSubtypeOf A S = true := by
        rw [isSub_nonunion hA hS]
        simpa using hSA
      show insertMem S ([A].filter fun m => !(isSubtypeOf m S)) = [S]
      rw [show [A].filter (fun m => !(isSubtypeOf m S)) = [] by simp [List.filter, hdrop]]
      rfl

/-- C3 witness: extending the singleton {Smi} with the fresh sibling
HeapNumber inserts it, keeps Smi, and recomputes the parent; extending {Smi}
with its supertype Number collapses to {Number}. -/
theorem claim_C3_witness :
    tHeapNumber ∈ (extend (fromType tSmi) tHeapNumber).members ∧
    tSmi ∈ (extend (fromType tSmi) tHeapNumber).members ∧
    (extend (fromType tSmi) tHeapNumber).parent =
      commonSupertype (fromType tSmi).parent tHeapNumber ∧
    (extend (fromType tSmi) tNumber).members = [tNumber] := by
  have h := claim_C3_extend_insert (fromType tSmi) tHeapNumber (by decide) (by decide)
  exact ⟨h.1, h.2.2.1 tSmi (by decide) (by decide), h.2.2.2.1,
    h.2.2.2.2 tSmi tNumber (by decide) (by decide) (by decide)⟩

/-- C4: Normalize() returns the single member itself when the member set has
exactly one element (on every reachable union the lone member coincides with
the stored parent that the code returns) and returns the union unchanged
otherwise; for every non-union type T, UnionType::FromType(T).Normalize()
is T. -/
theorem claim_C4_normalize (u : USt) (hr : Reachable u) :
    (∀ m, u.members = [m] → normalize u = m) ∧
    (u.members.length ≠ 1 → normalize u = mkUnionTy u) ∧
    (∀ t : Ty, t.isUnionT = false → normalize (fromType t) = t) := by
  have hu := reachable_inv hr
  refine ⟨?_, ?_, ?_⟩
  · intro m hm
    have hlen : u.members.length = 1 := by rw [hm]; rfl
    rw [normalize, if_pos hlen]
    exact hu.single m hm
  · intro h
    rw [normalize, if_neg h]
  · intro t htn
    rw [fromType_nonunion htn, normalize]
    rfl

/-- C4 witness: FromType(Smi).Normalize() is Smi. -/
theorem claim_C4_witness : normalize (fromType tSmi) = tSmi :=
  (claim_C4_normalize (fromType tSmi) (Reachable.base tSmi rfl)).2.2 tSmi rfl

/-- C5: Extending a UnionType with another UnionType is equivalent to
extending with each of its members individually; the final member set is the
same regardless of the order in which the members are added; and the
representation never nests unions: no member of the result is a UnionType. -/
theorem claim_C5_flattening (u : USt) (hr : Reachable u) (p : Ty)
    (ms ms' : List Ty) (hms : ∀ m ∈ ms, m.isUnionT = false) (hp : ms.Perm ms') :
    extend u (Ty.union p ms) = extendList u ms ∧
    (extendList u ms).members.Perm (extendList u ms').members ∧
    (∀ m ∈ (extendList u ms).members, m.isUnionT = false) := by
  have hu := reachable_inv hr
  exact ⟨extend_union u p ms, extendList_perm hu hms hp,
    (extendList_inv u ms hu).nonunion⟩

/-- C5 witness: extending {Smi} with the union {HeapNumber, Int} equals the
two individual extensions, in either order up to set equality. -/
theorem claim_C5_witness :
    extend (fromType tSmi) (Ty.union tNumber [tHeapNumber, tIntT]) =
      extendList (fromType tSmi) [tHeapNumber, tIntT] ∧
    (extendList (fromType tSmi) [tHeapNumber, tIntT]).members.Perm
      (extendList (fromType tSmi) [tIntT, tHeapNumber]).members := by
  have h := claim_C5_flattening (fromType tSmi) (Reachable.base tSmi rfl) tNumber
    [tHeapNumber, tIntT] [tIntT, tHeapNumber] (by decide) (by decide)
  exact ⟨h.1, h.2.1⟩

/-- C6: CommonSupertype(A, B) is a supertype of both A and B and the lowest
type on their shared parent chains, whenever the chains share an element
(the "global root" situation the spec assumes); it never fails — when A and
B share no chain element it returns a type with no parent (a root, on A's
chain). -/
theorem claim_C6_commonSupertype (a b : Ty) :
    (relatedTy a b →
      commonSupertype a b ∈ ancestors a ∧ commonSupertype a b ∈ ancestors b ∧
      ∀ c, c ∈ ancestors a → c ∈ ancestors b →
        c ∈ ancestors (commonSupertype a b)) ∧
    (¬ relatedTy a b → parentOf (commonSupertype a b) = none ∧
      commonSupertype a b ∈ ancestors a) :=
  ⟨commonSupertype_spec,
   fun h => ⟨commonSupertype_unrelated h, commonSupertype_mem_left a b⟩⟩

/-- C6 witness: CommonSupertype(Smi, HeapNumber) is an ancestor of both
(it is in fact Number). -/
theorem claim_C6_witness :
    commonSupertype tSmi tHeapNumber ∈ ancestors tSmi ∧
    commonSupertype tSmi tHeapNumber ∈ ancestors tHeapNumber ∧
    commonSupertype tSmi tHeapNumber = tNumber := by
  have h := (claim_C6_commonSupertype tSmi tHeapNumber).1
    ⟨tRoot, by decide, by decide⟩
  exact ⟨h.1, h.2.1, by decide⟩

/-- C7: IsAssignableFrom(AnyT, NeverT) returns true whenever NeverT is the
bottom/never type, even when AnyT does not appear in NeverT's parent chain;
in general IsAssignableFrom(to, from) is true iff from is a subtype of to or
from is the bottom type. -/
theorem claim_C7_assignable (tgt frm : Ty) :
    (isNever frm = true → isAssignableFrom tgt frm = true) ∧
    (isAssignableFrom tgt frm = true ↔
      (isSubtypeOf frm tgt = true ∨ isNever frm = true)) := by
  constructor
  · intro h
    simp [isAssignableFrom, h]
  · simp [isAssignableFrom, Bool.or_eq_true]

/-- C7 witness: the never type is assignable to the unrelated type Int. -/
theorem claim_C7_witness : isAssignableFrom tIntT tNever = true :=
  (claim_C7_assignable tIntT tNever).1 (by decide)

/-- C8: IsCompatibleSignature(declared, supplied) is true iff every supplied
argument in the fixed prefix is assignable to the corresponding declared
parameter and: without var_args the supplied count equals the declared fixed
count; with var_args extra trailing supplied arguments are accepted without
type checking but fewer supplied arguments than fixed parameters are
rejected; a mismatch yields false. -/
theorem claim_C8_compatible (sig : ParameterTypes) (args : List Ty) :
    isCompatibleSignature sig args = true ↔
      ((sig.var_args = false → args.length = sig.types.length) ∧
       (sig.var_args = true → sig.types.length ≤ args.length) ∧
       ∀ p ∈ sig.types.zip args, isAssignableFrom p.1 p.2 = true) :=
  checkArgs_iff sig.types args sig.var_args

/-- C8 witness: the spec's positive examples. -/
theorem claim_C8_witness :
    isCompatibleSignature { types := [tIntT, tStrT], var_args := false }
      [tIntT, tStrT] = true ∧
    isCompatibleSignature { types := [tIntT, tStrT], var_args := true }
      [tIntT, tStrT, tIntT] = true :=
  ⟨(claim_C8_compatible _ _).mpr (by decide),
   (claim_C8_compatible _ _).mpr (by decide)⟩

/-- C9: For every UnionType built by FromType and an arbitrary sequence of
Extend calls, whenever the member set has exactly one element that element is
identical to the union's parent — the assertion inside GetSingleMember never
fires — and GetSingleMember returns the lone member when the set size is 1
and absence otherwise. -/
theorem claim_C9_getSingleMember (u : USt) (hr : Reachable u) :
    (∀ m, u.members = [m] → u.parent = m) ∧
    (u.members.length = 1 → getSingleMember u = some u.parent) ∧
    (u.members.length ≠ 1 → getSingleMember u = none) := by
  have hu := reachable_inv hr
  refine ⟨hu.single, ?_, ?_⟩
  · intro h
    cases hm : u.members with
    | nil => rw [hm] at h; simp at h
    | cons m ms =>
      cases ms with
      | nil =>
        rw [hu.single m hm]
        simp [getSingleMember, hm]
      | cons m2 ms2 =>
        rw [hm] at h
        simp at h
  · intro h
    cases hm : u.members with
    | nil => simp [getSingleMember, hm]
    | cons m ms =>
      cases ms with
      | nil => rw [hm] at h; simp at h
      | cons m2 ms2 => simp [getSingleMember, hm]

/-- C9 witness: a union reached by an extension, with a single member equal
to its parent. -/
theorem claim_C9_witness :
    (extend (fromType tSmi) tNumber).parent = tNumber ∧
    getSingleMember (extend (fromType tSmi) tNumber) =
      some (extend (fromType tSmi) tNumber).parent := by
  have h := claim_C9_getSingleMember (extend (fromType tSmi) tNumber)
    (Reachable.step (fromType tSmi) tNumber (Reachable.base tSmi rfl))
  exact ⟨h.1 tNumber (by decide), h.2.1 (by decide)⟩

/-- C10: UnionType equality and hashing depend only on the member set: two
UnionTypes with equal member sets compare equal under operator== and have the
same hash_value even when their parents differ (aliases are not part of the
state at all). -/
theorem claim_C10_union_identity (addr : Ty → Nat) (u v : USt)
    (hinj : ∀ x ∈ u.members, ∀ y ∈ v.members, addr x = addr y → x = y)
    (hp : u.members.Perm v.members) :
    unionTypeEq addr u v = true ∧ unionHash addr u = unionHash addr v := by
  have hsort := sortByAddr_eq_of_perm hinj hp
  constructor
  · unfold unionTypeEq
    rw [hsort]
    simp
  · unfold unionHash
    rw [hsort]

/-- C10 witness: two unions with the same member set but different parents
are equal and hash alike. -/
theorem claim_C10_witness :
    unionTypeEq (fun t => if t = tIntT then 0 else 1)
      { parent := tRoot, members := [tIntT, tStrT] }
      { parent := tStrT, members := [tStrT, tIntT] } = true ∧
    unionHash (fun t => if t = tIntT then 0 else 1)
      { parent := tRoot, members := [tIntT, tStrT] } =
    unionHash (fun t => if t = tIntT then 0 else 1)
      { parent := tStrT, members := [tStrT, tIntT] } :=
  claim_C10_union_identity (fun t => if t = tIntT then 0 else 1)
    { parent := tRoot, members := [tIntT, tStrT] }
    { parent := tStrT, members := [tStrT, tIntT] }
    (by decide) (by decide)

end Torque
